import Mathlib

/-!
Verification of the round-robin scheduler model (src/model.py).

The development shallowly embeds the constraint-model construction and the
solution-extraction and persistence logic of the scheduler:

- group-size distribution computation (Model._compute_group_sizes);
- the boolean pair-variable constraints over an assignment
  (no self pair, symmetry, transitivity, cardinality, hierarchy exclusion,
  historical exclusion);
- discovery, ordering and parsing of historical solution files
  (Model._solution_paths, Model._historical_solutions);
- next solution identifier computation (Model.solve);
- canonicalization and naming of written solution files
  (ModelSolutionCallback.on_solution_callback);
- construction-time parameter validation (Model.__init__).

An assignment is a function a : Nat -> Nat -> Bool, where a i j is the value
of the pair variable for the participants at positions i and j of the sorted
participant list (variables[i][j] in the source).  The solution directory is
modelled as a list of (file name, file lines) pairs, every entry being a
regular file; file lines carry no trailing newline.  Strings are compared and
tokenized at the level of their character data, matching the byte-level
behaviour of the Python code on its inputs.
-/

/-! ### Group size distribution (Model._compute_group_sizes) -/

/-- Translation of Model._compute_group_sizes.  A Counter is built with the
quotient at the desired size; remainder 0 leaves it, remainder 1 moves one
group to size desired+1, larger remainders add one group of the remainder
size.  The final unary plus on the Counter drops entries whose count is not
positive, modelled by the filter. -/
def compute_group_sizes (num_participants desired_group_size : Nat) : List (Nat × Nat) :=
  (if num_participants % desired_group_size = 0 then
      [(desired_group_size, num_participants / desired_group_size)]
    else if num_participants % desired_group_size = 1 then
      [(desired_group_size, num_participants / desired_group_size - 1),
       (desired_group_size + 1, 1)]
    else
      [(desired_group_size, num_participants / desired_group_size),
       (num_participants % desired_group_size, 1)]).filter (fun p => decide (0 < p.2))

/-- The distribution viewed as a mapping from group size to group count,
absent sizes having count zero. -/
def group_size_count (num_participants desired_group_size size : Nat) : Nat :=
  ((compute_group_sizes num_participants desired_group_size).lookup size).getD 0

/-- Translation of the row_sums list of Model._apply_group_size_constraint:
for every (size, count) entry of the distribution, the value size - 1 is
listed size * count times. -/
def row_sums_list : List (Nat × Nat) → List Nat
  | [] => []
  | p :: rest => List.replicate (p.1 * p.2) (p.1 - 1) ++ row_sums_list rest

/-! ### Pair-variable constraints (Model._apply_*_constraint) -/

/-- Sum of one row of the pair-variable matrix. -/
def rowSum (N : Nat) (a : Nat → Nat → Bool) (i : Nat) : Nat :=
  ((List.range N).map (fun j => (a i j).toNat)).sum

/-- Sum of the whole pair-variable matrix. -/
def totalSum (N : Nat) (a : Nat → Nat → Bool) : Nat :=
  ((List.range N).map (fun i => rowSum N a i)).sum

/-- Translation of Model._apply_no_self_pair_constraint. -/
def no_self_pair_constraint (N : Nat) (a : Nat → Nat → Bool) : Prop :=
  ∀ i, i < N → a i i = false

/-- Translation of Model._apply_symmetric_constraint. -/
def symmetric_constraint (N : Nat) (a : Nat → Nat → Bool) : Prop :=
  ∀ i, i < N → ∀ j, j < N → i < j → a i j = a j i

/-- Translation of Model._apply_transitive_constraint: no ordered triple may
have exactly two true pair variables among its three pairs. -/
def transitive_constraint (N : Nat) (a : Nat → Nat → Bool) : Prop :=
  ∀ i, i < N → ∀ j, j < N → ∀ k, k < N → i < j → j < k →
    (a i j).toNat + (a i k).toNat + (a j k).toNat ≠ 2

/-- Translation of Model._apply_group_size_constraint: the grand total of the
matrix equals the sum of the row_sums list, and every row sum lies in the
domain built from the values of the row_sums list. -/
def group_size_constraint (N S : Nat) (a : Nat → Nat → Bool) : Prop :=
  totalSum N a = (row_sums_list (compute_group_sizes N S)).sum ∧
  ∀ i, i < N → rowSum N a i ∈ row_sums_list (compute_group_sizes N S)

/-- Modelled from the spec (claim C4 refinement side): the cardinality
constraint as the spec words it, (a) each row sum lies in the domain of the
values size - 1 for the sizes present in the distribution, and (b) the grand
total equals the sum over the distribution of size times count times
(size - 1). -/
def group_size_constraint_spec (N S : Nat) (a : Nat → Nat → Bool) : Prop :=
  (∀ i, i < N → ∃ p ∈ compute_group_sizes N S, rowSum N a i = p.1 - 1) ∧
  totalSum N a = ((compute_group_sizes N S).map (fun p => p.1 * p.2 * (p.1 - 1))).sum

/-- Translation of Model._apply_hierarchical_constraint: edges carries the
participant-index pairs of the hierarchy graph edges. -/
def hierarchical_constraint (edges : List (Nat × Nat)) (a : Nat → Nat → Bool) : Prop :=
  ∀ e ∈ edges, a e.1 e.2 = false

/-! ### Solution graph built by the callback (on_solution_callback) -/

/-- Undirected edge of the solution graph, as added by on_solution_callback:
for positions i < j below N with a true pair variable, an undirected edge
joins i and j. -/
def edgeRel (N : Nat) (a : Nat → Nat → Bool) (x y : Nat) : Prop :=
  (x < y ∧ y < N ∧ a x y = true) ∨ (y < x ∧ x < N ∧ a y x = true)

/-- Two participants lie in the same connected component of the solution
graph. -/
def sameComponent (N : Nat) (a : Nat → Nat → Bool) : Nat → Nat → Prop :=
  Relation.ReflTransGen (edgeRel N a)

/-! ### Historical solution files (Model._solution_paths and friends) -/

/-- Parse a decimal digit string as int does on such inputs. -/
def parseNat (s : String) : Nat :=
  s.data.foldl (fun n c => n * 10 + (c.toNat - 48)) 0

/-- Translation of the regular expression check pattern.fullmatch(name) with
pattern [0-9]+: one or more decimal digits and nothing else. -/
def isNumericName (s : String) : Bool :=
  !s.data.isEmpty && s.data.all Char.isDigit

/-- Translation of Model._solution_paths: keep the directory entries whose
name consists purely of decimal digits.  Every entry of the modelled
directory is a regular file, so the is_file conjunct of the source predicate
always holds. -/
def solution_paths (files : List (String × List String)) : List (String × List String) :=
  files.filter (fun f => isNumericName f.1)

/-- Translation of the selection step of Model._historical_solutions: sort
the numeric files by their parsed name, descending and stable, then take at
most the historical solution limit of them; a limit of none keeps them
all. -/
def historical_solutions (files : List (String × List String))
    (limit : Option Nat) : List (String × List String) :=
  let sorted := List.insertionSort
    (fun f g : String × List String => parseNat g.1 ≤ parseNat f.1)
    (solution_paths files)
  match limit with
  | none => sorted
  | some k => sorted.take k

/-- Translation of line.startswith applied to the comment marker. -/
def startsWithHash (s : String) : Bool :=
  match s.data with
  | [] => false
  | c :: _ => c = '#'

/-- Helper of tokenize: split a character list at whitespace runs. -/
def wordsAux : List Char → List Char → List (List Char)
  | [], [] => []
  | [], acc => [acc.reverse]
  | c :: cs, acc =>
    if c.isWhitespace then
      (if acc.isEmpty then wordsAux cs [] else acc.reverse :: wordsAux cs [])
    else wordsAux cs (c :: acc)

/-- Translation of line.strip().split(): the whitespace-delimited words of a
line. -/
def tokenize (s : String) : List String :=
  (wordsAux s.data []).map (fun cs => String.mk cs)

/-- Translation of the parsing loop of Model._historical_solutions: drop the
lines starting with the comment marker and split each remaining line into a
group of participant names. -/
def parseGroups (lines : List String) : List (List String) :=
  (lines.filter (fun l => !(startsWithHash l))).map tokenize

/-- Translation of itertools.combinations(group, r=2): all pairs of elements
in order of position. -/
def pairsOf : List α → List (α × α)
  | [] => []
  | x :: xs => xs.map (fun y => (x, y)) ++ pairsOf xs

/-- All pair edges contributed by one historical solution file. -/
def filePairs (lines : List String) : List (String × String) :=
  (parseGroups lines).flatMap pairsOf

/-- Edges of the composed historical graph: the union over the selected
historical solution files of their pair edges, as built by the nx.compose
fold of Model._apply_historical_constraint. -/
def composedEdges (files : List (String × List String))
    (limit : Option Nat) : List (String × String) :=
  (historical_solutions files limit).flatMap (fun f => filePairs f.2)

/-- Translation of composed_hs.has_edge(*pair) on an undirected graph: some
recorded edge joins the two names in either orientation. -/
def hasHistEdge (files : List (String × List String)) (limit : Option Nat)
    (x y : String) : Bool :=
  (composedEdges files limit).any
    (fun e => (decide (e.1 = x) && decide (e.2 = y)) || (decide (e.1 = y) && decide (e.2 = x)))

/-- Translation of Model._apply_historical_constraint: for every pair of
participants, in sorted order, whose names are joined by an edge of the
composed historical graph, the pair variable is forced to false. -/
def historical_constraint (ps : List String) (files : List (String × List String))
    (limit : Option Nat) (a : Nat → Nat → Bool) : Prop :=
  ∀ i j : Fin ps.length, i.val < j.val →
    hasHistEdge files limit (ps.get i) (ps.get j) = true →
    a i.val j.val = false

/-! ### Solution naming (Model.solve and on_solution_callback) -/

/-- Python max with a default value: the default on an empty list, else the
largest element. -/
def maxIntDefault (l : List Int) (dflt : Int) : Int :=
  match l with
  | [] => dflt
  | x :: xs => xs.foldl max x

/-- Translation of the solution_name computation of Model.solve: one more
than the largest numeric file name of the solution directory, the maximum
defaulting to minus one. -/
def next_solution_id (files : List (String × List String)) : Int :=
  1 + maxIntDefault ((solution_paths files).map (fun f => (parseNat f.1 : Int))) (-1)

/-- Translation of the path choice of on_solution_callback: the bare solution
name when the solution limit is exactly one, otherwise the solution name and
the running solution count joined by an underscore. -/
def solution_file_name (name : String) (limit : Nat) (count : Nat) : String :=
  if limit = 1 then name else name ++ "_" ++ toString count

/-! ### Construction-time validation (Model.__init__) -/

/-- Translation of the value checks of Model.__init__, in source order.  The
isinstance type checks of the source are enforced by the types of the
arguments; the historical solution limit is none for unlimited, otherwise an
integer. -/
def validate_model_params (num_participants : Nat) (desired_group_size : Int)
    (historical_solution_limit : Option Int) : Except String Unit :=
  if num_participants < 2 then
    Except.error "participant_graph must have at least two nodes"
  else if desired_group_size < 2 then
    Except.error "desired_group_size must be at least 2"
  else if (num_participants : Int) < desired_group_size then
    Except.error "num_participants must be greater than or equal to desired_group_size"
  else
    match historical_solution_limit with
    | none => Except.ok ()
    | some l =>
        if l < 0 then Except.error "historical_solution_limit may not be less than 0"
        else Except.ok ()

/-! ### Canonical group listing written by on_solution_callback -/

/-- Lexicographic comparison of sequences by a head comparison, as Python
compares sequences: equal heads recurse, otherwise the head comparison
decides; a prefix precedes its extensions. -/
def lexListLe {α : Type} [DecidableEq α] (le : α → α → Bool) : List α → List α → Bool
  | [], _ => true
  | _ :: _, [] => false
  | a :: as, b :: bs => if a = b then lexListLe le as bs else le a b

/-- Python string comparison: lexicographic on the character code points. -/
def strLe (a b : String) : Bool :=
  lexListLe (fun x y : Nat => decide (x ≤ y)) (a.data.map Char.toNat) (b.data.map Char.toNat)

/-- The inner sorted(group) of on_solution_callback: the members of one
group in string order. -/
def sortedGroup (g : List String) : List String :=
  List.insertionSort (fun x y => strLe x y = true) g

/-- The canonical group listing of on_solution_callback: members sorted
inside each group, then the groups sorted by the sequence comparison on
their sorted member lists. -/
def canonicalGroups (comps : List (List String)) : List (List String) :=
  List.insertionSort (fun x y => lexListLe strLe x y = true) (comps.map sortedGroup)

/-- The text written to one solution file: one line per canonical group,
members joined by single spaces, each line terminated by a newline. -/
def solution_file_content (comps : List (List String)) : String :=
  String.join ((canonicalGroups comps).map (fun g => String.intercalate " " g ++ "\n"))

/-! ### Helper lemmas -/

theorem sum_filter_pos_entries (l : List (Nat × Nat)) :
    ((l.filter (fun p => decide (0 < p.2))).map (fun p => p.1 * p.2)).sum =
      (l.map (fun p => p.1 * p.2)).sum := by
  induction l with
  | nil => rfl
  | cons p rest ih =>
      by_cases h : 0 < p.2
      · simp [List.filter_cons, h, ih]
      · have h2 : p.2 = 0 := by omega
        simp [List.filter_cons, h, ih, h2]

theorem le_foldl_max (l : List Int) (x : Int) : x ≤ l.foldl max x := by
  induction l generalizing x with
  | nil => simp
  | cons y ys ih => exact le_trans (le_max_left x y) (ih (max x y))

theorem mem_le_foldl_max (l : List Int) (x v : Int) (hv : v ∈ l) : v ≤ l.foldl max x := by
  induction l generalizing x with
  | nil => cases hv
  | cons y ys ih =>
      rcases List.mem_cons.mp hv with rfl | hv'
      · exact le_trans (le_max_right x v) (le_foldl_max ys (max x v))
      · exact ih _ hv'

theorem foldl_max_mem (l : List Int) (x : Int) : l.foldl max x = x ∨ l.foldl max x ∈ l := by
  induction l generalizing x with
  | nil => exact Or.inl rfl
  | cons y ys ih =>
      rcases ih (max x y) with h | h
      · rcases max_choice x y with hm | hm
        · exact Or.inl (by rw [List.foldl_cons, h, hm])
        · exact Or.inr (by rw [List.foldl_cons, h, hm]; exact List.mem_cons_self y ys)
      · exact Or.inr (List.mem_cons_of_mem y h)

/-! ### Claim theorems -/

/-- Claim C2: for every participant count N and desired group size S with
2 <= S <= N, the computed group size distribution covers all N participants:
the sum over its entries of size times count equals N. -/
theorem group_sizes_sum_eq (N S : Nat) (hS : 2 ≤ S) (hSN : S ≤ N) :
    ((compute_group_sizes N S).map (fun p => p.1 * p.2)).sum = N := by
  have hSpos : 0 < S := by omega
  have hqr := Nat.div_add_mod N S
  have hq : 1 ≤ N / S := (Nat.one_le_div_iff hSpos).mpr hSN
  have hr : N % S < S := Nat.mod_lt _ hSpos
  unfold compute_group_sizes
  rw [sum_filter_pos_entries]
  by_cases h0 : N % S = 0
  · simp [h0]; omega
  · by_cases h1 : N % S = 1
    · have key : S * (N / S - 1) + S = S * (N / S) := by
        calc S * (N / S - 1) + S = S * (N / S - 1 + 1) := by rw [Nat.mul_succ]
        _ = S * (N / S) := by rw [Nat.sub_add_cancel hq]
      simp [h0, h1]; omega
    · simp [h0, h1]; omega

/-- Claim C2 witness: seven participants with desired size three are fully
covered. -/
theorem group_sizes_sum_eq_witness :
    ((compute_group_sizes 7 3).map (fun p => p.1 * p.2)).sum = 7 :=
  group_sizes_sum_eq 7 3 (by decide) (by decide)


theorem lookup_cons_self {β : Type} (k : Nat) (b : β) (l : List (Nat × β)) :
    List.lookup k ((k, b) :: l) = some b := by simp [List.lookup]

theorem lookup_cons_ne {β : Type} {k z : Nat} (hz : z ≠ k) (b : β) (l : List (Nat × β)) :
    List.lookup z ((k, b) :: l) = List.lookup z l := by
  simp [List.lookup, beq_eq_false_iff_ne.mpr hz]

/-- Claim C3: for 2 <= S <= N with q = N / S and r = N % S, the distribution
mapping is S to q when r = 0, S to q - 1 and S + 1 to 1 when r = 1, and S to
q with r to 1 when r >= 2; and every size present with positive count is at
least 2. -/
theorem group_size_distribution_shape (N S : Nat) (hS : 2 ≤ S) (hSN : S ≤ N) :
    (N % S = 0 → ∀ z, group_size_count N S z = if z = S then N / S else 0) ∧
    (N % S = 1 → ∀ z, group_size_count N S z =
        if z = S then N / S - 1 else if z = S + 1 then 1 else 0) ∧
    (2 ≤ N % S → ∀ z, group_size_count N S z =
        if z = S then N / S else if z = N % S then 1 else 0) ∧
    (∀ z, 0 < group_size_count N S z → 2 ≤ z) := by
  have hSpos : 0 < S := by omega
  have hq : 0 < N / S := (Nat.one_le_div_iff hSpos).mpr hSN
  have hr : N % S < S := Nat.mod_lt _ hSpos
  have h0case : N % S = 0 → ∀ z, group_size_count N S z = if z = S then N / S else 0 := by
    intro h0 z
    have e0 : compute_group_sizes N S = [(S, N / S)] := by
      simp [compute_group_sizes, h0, List.filter_cons, hq]
    rcases eq_or_ne z S with rfl | hz
    · simp [group_size_count, e0, lookup_cons_self]
    · simp [group_size_count, e0, lookup_cons_ne hz, hz, List.lookup]
  have h1case : N % S = 1 → ∀ z, group_size_count N S z =
      if z = S then N / S - 1 else if z = S + 1 then 1 else 0 := by
    intro h1 z
    have h0 : ¬ N % S = 0 := by omega
    by_cases hq1 : N / S - 1 = 0
    · have e1 : compute_group_sizes N S = [(S + 1, 1)] := by
        simp [compute_group_sizes, h0, h1, List.filter_cons, hq1]
      rcases eq_or_ne z S with rfl | hz
      · simp [group_size_count, e1, lookup_cons_ne (show z ≠ z + 1 by omega), List.lookup, hq1]
      · rcases eq_or_ne z (S + 1) with rfl | hz1
        · simp [group_size_count, e1, lookup_cons_self, hz]
        · simp [group_size_count, e1, lookup_cons_ne hz1, hz, hz1, List.lookup]
    · have e1 : compute_group_sizes N S = [(S, N / S - 1), (S + 1, 1)] := by
        simp [compute_group_sizes, h0, h1, List.filter_cons, Nat.pos_of_ne_zero hq1]
      rcases eq_or_ne z S with rfl | hz
      · simp [group_size_count, e1, lookup_cons_self]
      · rcases eq_or_ne z (S + 1) with rfl | hz1
        · simp [group_size_count, e1, lookup_cons_ne hz, lookup_cons_self]
        · simp [group_size_count, e1, List.lookup, hz, hz1,
            beq_eq_false_iff_ne.mpr hz, beq_eq_false_iff_ne.mpr hz1]
  have h2case : 2 ≤ N % S → ∀ z, group_size_count N S z =
      if z = S then N / S else if z = N % S then 1 else 0 := by
    intro h2 z
    have h0 : ¬ N % S = 0 := by omega
    have h1 : ¬ N % S = 1 := by omega
    have e2 : compute_group_sizes N S = [(S, N / S), (N % S, 1)] := by
      simp [compute_group_sizes, h0, h1, List.filter_cons, hq]
    rcases eq_or_ne z S with rfl | hz
    · simp [group_size_count, e2, lookup_cons_self]
    · rcases eq_or_ne z (N % S) with rfl | hzr
      · simp [group_size_count, e2, lookup_cons_ne hz, lookup_cons_self, hr.ne]
      · simp [group_size_count, e2, List.lookup, hz, hzr,
          beq_eq_false_iff_ne.mpr hz, beq_eq_false_iff_ne.mpr hzr]
  refine ⟨h0case, h1case, h2case, ?_⟩
  intro z hpos
  rcases Nat.lt_or_ge (N % S) 2 with hsmall | hbig
  · have hsplit : N % S = 0 ∨ N % S = 1 := by omega
    rcases hsplit with h | h
    · have := h0case h z; split_ifs at this <;> omega
    · have := h1case h z; split_ifs at this <;> omega
  · have := h2case hbig z; split_ifs at this <;> omega

/-- Claim C3 witness: eight participants with desired size three, the
remainder-two branch. -/
theorem group_size_distribution_shape_witness :
    (8 % 3 = 0 → ∀ z, group_size_count 8 3 z = if z = 3 then 8 / 3 else 0) ∧
    (8 % 3 = 1 → ∀ z, group_size_count 8 3 z =
        if z = 3 then 8 / 3 - 1 else if z = 3 + 1 then 1 else 0) ∧
    (2 ≤ 8 % 3 → ∀ z, group_size_count 8 3 z =
        if z = 3 then 8 / 3 else if z = 8 % 3 then 1 else 0) ∧
    (∀ z, 0 < group_size_count 8 3 z → 2 ≤ z) :=
  group_size_distribution_shape 8 3 (by decide) (by decide)

/-- Claim C9: model construction fails exactly when a parameter violates its
contract: fewer than two participants, desired group size below two or above
the participant count, or a negative historical solution limit; otherwise
construction succeeds.  The isinstance type checks of the source are
enforced by the argument types of the embedding. -/
theorem model_construction_validation (n : Nat) (s : Int) (h : Option Int) :
    validate_model_params n s h = Except.ok () ↔
      (2 ≤ n ∧ 2 ≤ s ∧ s ≤ (n : Int) ∧ ∀ l, h = some l → 0 ≤ l) := by
  rcases h with _ | l
  · unfold validate_model_params
    split_ifs <;> simp_all
  · unfold validate_model_params
    split_ifs <;> simp_all

/-- Claim C9 witness: four participants, desired size two, historical limit
three is accepted. -/
theorem model_construction_validation_witness :
    validate_model_params 4 2 (some 3) = Except.ok () :=
  (model_construction_validation 4 2 (some 3)).mpr
    ⟨by decide, by decide, by decide, by intro l hl; injection hl with hl2; omega⟩

/-- Claim C7: the solution identifier chosen by solve equals one plus the
largest integer among the all-digit file names of the solution directory,
zero when there is none; it is strictly greater than every existing numeric
identifier. -/
theorem next_solution_id_spec (files : List (String × List String)) :
    ((solution_paths files).map (fun f => (parseNat f.1 : Int)) = [] →
      next_solution_id files = 0) ∧
    (∀ v ∈ (solution_paths files).map (fun f => (parseNat f.1 : Int)),
      v < next_solution_id files) ∧
    ((solution_paths files).map (fun f => (parseNat f.1 : Int)) ≠ [] →
      ∃ v ∈ (solution_paths files).map (fun f => (parseNat f.1 : Int)),
        next_solution_id files = 1 + v ∧
        ∀ w ∈ (solution_paths files).map (fun f => (parseNat f.1 : Int)), w ≤ v) := by
  cases hids : (solution_paths files).map (fun f => (parseNat f.1 : Int)) with
  | nil =>
      refine ⟨fun _ => ?_, fun v hv => ?_, fun hne => absurd rfl hne⟩
      · simp [next_solution_id, maxIntDefault, hids]
      · cases hv
  | cons x xs =>
      have hid : next_solution_id files = 1 + xs.foldl max x := by
        simp [next_solution_id, maxIntDefault, hids]
      refine ⟨fun hnil => absurd hnil (List.cons_ne_nil x xs), fun v hv => ?_, fun _ => ?_⟩
      · rw [hid]
        rcases List.mem_cons.mp hv with rfl | hv'
        · have := le_foldl_max xs v
          omega
        · have := mem_le_foldl_max xs x v hv'
          omega
      · refine ⟨xs.foldl max x, ?_, hid, ?_⟩
        · rcases foldl_max_mem xs x with hm | hm
          · rw [hm]; exact List.mem_cons_self x xs
          · exact List.mem_cons_of_mem x hm
        · intro w hw
          rcases List.mem_cons.mp hw with rfl | hw'
          · exact le_foldl_max xs w
          · exact mem_le_foldl_max xs x w hw'

/-- Claim C7 witness: with numeric names 2 and 007 present and a non-numeric
name ignored, every existing identifier is below the chosen one. -/
theorem next_solution_id_spec_witness :
    (2 : Int) < next_solution_id [("2", []), ("run", []), ("007", [])] :=
  (next_solution_id_spec [("2", []), ("run", []), ("007", [])]).2.1 2 (by decide)

/-- Claim C10: when the configured solution limit is not one, every written
file name carries an underscore-joined enumeration index, never matches the
all-digit discovery pattern, and therefore is invisible to the directory
scan that feeds both the historical constraint and the next identifier. -/
theorem multi_solution_names_invisible (name : String) (limit count : Nat)
    (hl : limit ≠ 1) :
    isNumericName (solution_file_name name limit count) = false ∧
    ∀ files content,
      solution_paths (files ++ [(solution_file_name name limit count, content)]) =
        solution_paths files := by
  have hname : solution_file_name name limit count = name ++ "_" ++ toString count := by
    simp [solution_file_name, hl]
  have hmem : '_' ∈ (name ++ "_" ++ toString count).data := by
    simp
  have hnum : isNumericName (name ++ "_" ++ toString count) = false := by
    unfold isNumericName
    have hall : ((name ++ "_" ++ toString count).data.all Char.isDigit) = false := by
      rw [List.all_eq_false]
      exact ⟨'_', hmem, by decide⟩
    simp [hall]
  refine ⟨by rw [hname]; exact hnum, ?_⟩
  intro files content
  rw [hname]
  simp [solution_paths, List.filter_append, hnum]

/-- Claim C10 witness: with limit zero the written name 7_0 is not numeric
and stays invisible to the directory scan. -/
theorem multi_solution_names_invisible_witness :
    isNumericName (solution_file_name "7" 0 0) = false ∧
    ∀ files content,
      solution_paths (files ++ [(solution_file_name "7" 0 0, content)]) =
        solution_paths files :=
  multi_solution_names_invisible "7" 0 0 (by decide)

theorem mem_compute_group_sizes {N S : Nat} (hS : 2 ≤ S) (p : Nat × Nat)
    (hp : p ∈ compute_group_sizes N S) : 2 ≤ p.1 ∧ 0 < p.2 := by
  unfold compute_group_sizes at hp
  rw [List.mem_filter] at hp
  obtain ⟨hmem, hpos⟩ := hp
  have hpos2 : 0 < p.2 := by simpa using hpos
  refine ⟨?_, hpos2⟩
  split_ifs at hmem with h0 h1
  · simp only [List.mem_singleton] at hmem
    subst hmem; simpa using hS
  · simp only [List.mem_cons, List.not_mem_nil, or_false] at hmem
    rcases hmem with rfl | rfl
    · simpa using hS
    · simp; omega
  · simp only [List.mem_cons, List.not_mem_nil, or_false] at hmem
    rcases hmem with rfl | rfl
    · simpa using hS
    · simp; omega

theorem mem_row_sums_list {l : List (Nat × Nat)} (hl : ∀ p ∈ l, 0 < p.1 * p.2) (x : Nat) :
    x ∈ row_sums_list l ↔ ∃ p ∈ l, x = p.1 - 1 := by
  induction l with
  | nil => simp [row_sums_list]
  | cons p rest ih =>
      have hp : 0 < p.1 * p.2 := hl p (List.mem_cons_self p rest)
      have hrest : ∀ q ∈ rest, 0 < q.1 * q.2 := fun q hq => hl q (List.mem_cons_of_mem p hq)
      simp only [row_sums_list, List.mem_append, List.mem_replicate, ih hrest]
      constructor
      · rintro (⟨-, rfl⟩ | ⟨q, hq, rfl⟩)
        · exact ⟨p, List.mem_cons_self p rest, rfl⟩
        · exact ⟨q, List.mem_cons_of_mem p hq, rfl⟩
      · rintro ⟨q, hq, rfl⟩
        rcases List.mem_cons.mp hq with rfl | hq'
        · exact Or.inl ⟨by omega, rfl⟩
        · exact Or.inr ⟨q, hq', rfl⟩

theorem row_sums_list_sum (l : List (Nat × Nat)) :
    (row_sums_list l).sum = (l.map (fun p => p.1 * p.2 * (p.1 - 1))).sum := by
  induction l with
  | nil => rfl
  | cons p rest ih =>
      simp [row_sums_list, List.sum_append, List.sum_replicate, ih, smul_eq_mul]

/-- Claim C4: the cardinality constraint built by the code (row sums in the
domain of the row_sums values, total equal to the row_sums sum) is exactly
the constraint the spec states: row sums in the set of size - 1 for sizes
present in the distribution, and grand total equal to the sum over the
distribution of size times count times (size - 1). -/
theorem cardinality_constraint_spec_equiv (N S : Nat) (a : Nat → Nat → Bool)
    (hS : 2 ≤ S) (hSN : S ≤ N) :
    group_size_constraint N S a ↔ group_size_constraint_spec N S a := by
  have hppos : ∀ p ∈ compute_group_sizes N S, 0 < p.1 * p.2 := fun p hp => by
    obtain ⟨h1, h2⟩ := mem_compute_group_sizes hS p hp
    exact Nat.mul_pos (by omega) h2
  constructor
  · rintro ⟨htot, hrow⟩
    exact ⟨fun i hi => (mem_row_sums_list hppos _).mp (hrow i hi),
      by rw [htot, row_sums_list_sum]⟩
  · rintro ⟨hrow, htot⟩
    exact ⟨by rw [htot, row_sums_list_sum], fun i hi =>
      (mem_row_sums_list hppos _).mpr (hrow i hi)⟩

/-- Claim C4 witness: the pairing of two participants satisfies both the
code form and the spec form of the cardinality constraint. -/
theorem cardinality_constraint_spec_equiv_witness :
    group_size_constraint 2 2 (fun i j => decide (i + j = 1)) ↔
      group_size_constraint_spec 2 2 (fun i j => decide (i + j = 1)) :=
  cardinality_constraint_spec_equiv 2 2 (fun i j => decide (i + j = 1))
    (by decide) (by decide)

theorem symm_all {N : Nat} {a : Nat → Nat → Bool} (hsym : symmetric_constraint N a) :
    ∀ i j, i < N → j < N → i ≠ j → a i j = a j i := by
  intro i j hi hj hne
  rcases Nat.lt_or_ge i j with h | h
  · exact hsym i hi j hj h
  · have h2 : j < i := by omega
    exact (hsym j hj i hi h2).symm

theorem trans_general {N : Nat} {a : Nat → Nat → Bool}
    (hsym : symmetric_constraint N a) (htr : transitive_constraint N a) :
    ∀ i j k, i < N → j < N → k < N → i ≠ j → j ≠ k → i ≠ k →
      a i j = true → a j k = true → a i k = true := by
  intro i j k hi hj hk hij hjk hik hab hbc
  have hba : a j i = true := by rw [symm_all hsym j i hj hi (Ne.symm hij)]; exact hab
  have hcb : a k j = true := by rw [symm_all hsym k j hk hj (Ne.symm hjk)]; exact hbc
  have hflip : a k i = true → a i k = true := by
    intro h
    rw [symm_all hsym i k hi hk hik]; exact h
  rcases Nat.lt_trichotomy i j with h1 | h1 | h1
  · rcases Nat.lt_trichotomy j k with h2 | h2 | h2
    · -- i < j < k
      cases hv : a i k with
      | false => exact absurd (by rw [hab, hbc, hv]; rfl) (htr i hi j hj k hk h1 h2)
      | true => rfl
    · exact absurd h2 hjk
    · rcases Nat.lt_trichotomy i k with h3 | h3 | h3
      · -- i < k < j
        cases hv : a i k with
        | false => exact absurd (by rw [hab, hcb, hv]; rfl) (htr i hi k hk j hj h3 h2)
        | true => rfl
      · exact absurd h3 hik
      · -- k < i < j
        cases hv : a k i with
        | false => exact absurd (by rw [hab, hcb, hv]; rfl) (htr k hk i hi j hj h3 h1)
        | true => exact hflip hv
  · exact absurd h1 hij
  · rcases Nat.lt_trichotomy i k with h3 | h3 | h3
    · -- j < i < k
      cases hv : a i k with
      | false => exact absurd (by rw [hba, hbc, hv]; rfl) (htr j hj i hi k hk h1 h3)
      | true => rfl
    · exact absurd h3 hik
    · rcases Nat.lt_trichotomy j k with h2 | h2 | h2
      · -- j < k < i
        cases hv : a k i with
        | false => exact absurd (by rw [hba, hbc, hv]; rfl) (htr j hj k hk i hi h2 h3)
        | true => exact hflip hv
      · exact absurd h2 hjk
      · -- k < j < i
        cases hv : a k i with
        | false => exact absurd (by rw [hba, hcb, hv]; rfl) (htr k hk j hj i hi h2 h1)
        | true => exact hflip hv

theorem edgeRel_symm {N : Nat} {a : Nat → Nat → Bool} : Symmetric (edgeRel N a) :=
  fun _ _ h => Or.symm h

theorem edgeRel_bounds {N : Nat} {a : Nat → Nat → Bool} {x y : Nat}
    (h : edgeRel N a x y) : x < N ∧ y < N := by
  rcases h with ⟨h1, h2, -⟩ | ⟨h1, h2, -⟩ <;> omega

theorem edgeRel_adj {N : Nat} {a : Nat → Nat → Bool}
    (hsym : symmetric_constraint N a) {x y : Nat} (h : edgeRel N a x y) :
    x ≠ y ∧ x < N ∧ y < N ∧ a x y = true := by
  rcases h with ⟨h1, h2, h3⟩ | ⟨h1, h2, h3⟩
  · exact ⟨by omega, by omega, h2, h3⟩
  · refine ⟨by omega, h2, by omega, ?_⟩
    rw [symm_all hsym x y h2 (by omega) (by omega)]
    exact h3

theorem sameComponent_adj {N : Nat} {a : Nat → Nat → Bool}
    (hsym : symmetric_constraint N a) (htr : transitive_constraint N a)
    {x y : Nat} (h : sameComponent N a x y) :
    x = y ∨ (x ≠ y ∧ x < N ∧ y < N ∧ a x y = true) := by
  induction h with
  | refl => exact Or.inl rfl
  | tail hxb hbc ih =>
      rename_i b c
      obtain ⟨hne, hb, hc, hval⟩ := edgeRel_adj hsym hbc
      rcases ih with rfl | ⟨hxb2, hx2, hb2, hval2⟩
      · exact Or.inr ⟨hne, hb, hc, hval⟩
      · by_cases hxc : x = c
        · exact Or.inl hxc
        · refine Or.inr ⟨hxc, hx2, hc, ?_⟩
          exact trans_general hsym htr x b c hx2 hb2 hc hxb2 hne hxc hval2 hval

/-- Claim C1: for every assignment satisfying the structural constraints of
the model, the connected components of the true-pair graph built by the
solution callback partition the full participant set: every participant is
incident to some edge of the graph (no participant omitted), every graph
node is a participant, the component of a participant is exactly the clique
of participants paired with it, and any two components that meet are
equal (every participant lies in exactly one written group). -/
theorem solution_components_partition (N S : Nat) (a : Nat → Nat → Bool)
    (hS : 2 ≤ S) (hSN : S ≤ N)
    (hns : no_self_pair_constraint N a) (hsym : symmetric_constraint N a)
    (htr : transitive_constraint N a) (hgs : group_size_constraint N S a) :
    (∀ i, i < N → ∃ j, edgeRel N a i j) ∧
    (∀ x y, edgeRel N a x y → x < N ∧ y < N) ∧
    (∀ i j, i < N → j < N → (sameComponent N a i j ↔ (i = j ∨ a i j = true))) ∧
    (∀ i j k, sameComponent N a i j → sameComponent N a i k →
      sameComponent N a j k) := by
  have hppos : ∀ p ∈ compute_group_sizes N S, 0 < p.1 * p.2 := fun p hp => by
    obtain ⟨h1, h2⟩ := mem_compute_group_sizes hS p hp
    exact Nat.mul_pos (by omega) h2
  have hrowpos : ∀ i, i < N → 1 ≤ rowSum N a i := by
    intro i hi
    have hmem := hgs.2 i hi
    obtain ⟨p, hp, heq⟩ := (mem_row_sums_list hppos _).mp hmem
    have := mem_compute_group_sizes hS p hp
    omega
  have hex : ∀ i, i < N → ∃ j, j < N ∧ a i j = true := by
    intro i hi
    by_contra hno
    push_neg at hno
    have hzero : rowSum N a i = 0 := by
      unfold rowSum
      rw [List.sum_eq_zero_iff]
      intro x hx
      simp only [List.mem_map, List.mem_range] at hx
      obtain ⟨j, hj, rfl⟩ := hx
      have := hno j hj
      simp [Bool.toNat_eq_zero]
      exact Bool.eq_false_iff.mpr (by simpa using this)
    have := hrowpos i hi
    omega
  refine ⟨?_, fun x y h => edgeRel_bounds h, ?_, ?_⟩
  · intro i hi
    obtain ⟨j, hj, hval⟩ := hex i hi
    have hne : j ≠ i := by
      intro h
      subst h
      rw [hns j hj] at hval
      cases hval
    rcases Nat.lt_or_ge i j with h | h
    · exact ⟨j, Or.inl ⟨h, hj, hval⟩⟩
    · refine ⟨j, Or.inr ⟨by omega, hi, ?_⟩⟩
      rw [symm_all hsym j i hj hi hne]
      exact hval
  · intro i j hi hj
    constructor
    · intro h
      rcases sameComponent_adj hsym htr h with rfl | ⟨-, -, -, hval⟩
      · exact Or.inl rfl
      · exact Or.inr hval
    · rintro (rfl | hval)
      · exact Relation.ReflTransGen.refl
      · rcases Nat.lt_trichotomy i j with h | h | h
        · exact Relation.ReflTransGen.single (Or.inl ⟨h, hj, hval⟩)
        · exact h ▸ Relation.ReflTransGen.refl
        · refine Relation.ReflTransGen.single (Or.inr ⟨h, hi, ?_⟩)
          rw [symm_all hsym j i hj hi (by omega)]
          exact hval
  · intro i j k hij hik
    have hsymm : Symmetric (sameComponent N a) :=
      Relation.ReflTransGen.symmetric edgeRel_symm
    exact Relation.ReflTransGen.trans (hsymm hij) hik

/-- Claim C1 witness: the pairing of two participants satisfies all
constraints, and the partition conclusions hold for it. -/
theorem solution_components_partition_witness :
    (∀ i, i < 2 → ∃ j, edgeRel 2 (fun i j => decide (i + j = 1)) i j) ∧
    (∀ x y, edgeRel 2 (fun i j => decide (i + j = 1)) x y → x < 2 ∧ y < 2) ∧
    (∀ i j, i < 2 → j < 2 →
      (sameComponent 2 (fun i j => decide (i + j = 1)) i j ↔
        (i = j ∨ decide (i + j = 1) = true))) ∧
    (∀ i j k, sameComponent 2 (fun i j => decide (i + j = 1)) i j →
      sameComponent 2 (fun i j => decide (i + j = 1)) i k →
      sameComponent 2 (fun i j => decide (i + j = 1)) j k) :=
  solution_components_partition 2 2 (fun i j => decide (i + j = 1))
    (by decide) (by decide)
    (by unfold no_self_pair_constraint; decide)
    (by unfold symmetric_constraint; decide)
    (by unfold transitive_constraint; decide)
    (by unfold group_size_constraint rowSum totalSum; decide)

/-- Claim C5: for every hierarchy edge, the model forces the pair variable
of parent and child to false; by symmetry the reverse variable is false in
every satisfying assignment as well, and the two endpoints never lie in the
same connected component of the solution graph. -/
theorem hierarchy_exclusion (N : Nat) (a : Nat → Nat → Bool)
    (edges : List (Nat × Nat))
    (hsym : symmetric_constraint N a) (htr : transitive_constraint N a)
    (hbound : ∀ e ∈ edges, e.1 < N ∧ e.2 < N)
    (hh : hierarchical_constraint edges a) :
    ∀ e ∈ edges, e.1 ≠ e.2 →
      a e.1 e.2 = false ∧ a e.2 e.1 = false ∧
        ¬ sameComponent N a e.1 e.2 := by
  intro e he hne
  obtain ⟨h1, h2⟩ := hbound e he
  have hfalse := hh e he
  have hrev : a e.2 e.1 = false := by
    rw [symm_all hsym e.2 e.1 h2 h1 (Ne.symm hne)]
    exact hfalse
  refine ⟨hfalse, hrev, ?_⟩
  intro hsc
  rcases sameComponent_adj hsym htr hsc with heq | ⟨-, -, -, htrue⟩
  · exact hne heq
  · rw [hfalse] at htrue
    cases htrue

/-- Claim C5 witness: with one hierarchy edge and the all-false assignment,
parent and child are excluded in both directions and share no group. -/
theorem hierarchy_exclusion_witness :
    (fun _ _ : Nat => false) 0 1 = false ∧
    (fun _ _ : Nat => false) 1 0 = false ∧
    ¬ sameComponent 2 (fun _ _ => false) 0 1 :=
  hierarchy_exclusion 2 (fun _ _ => false) [(0, 1)]
    (by unfold symmetric_constraint; decide)
    (by unfold transitive_constraint; decide)
    (by decide)
    (by unfold hierarchical_constraint; decide)
    (0, 1) (List.mem_singleton.mpr rfl) (by decide)

theorem pairsOf_mem {α : Type} {g : List α} {x y : α}
    (hx : x ∈ g) (hy : y ∈ g) (hxy : x ≠ y) :
    (x, y) ∈ pairsOf g ∨ (y, x) ∈ pairsOf g := by
  induction g with
  | nil => cases hx
  | cons h t ih =>
      rcases List.mem_cons.mp hx with rfl | hx'
      · rcases List.mem_cons.mp hy with rfl | hy'
        · exact absurd rfl hxy
        · exact Or.inl (by
            simp only [pairsOf, List.mem_append, List.mem_map]
            exact Or.inl ⟨y, hy', rfl⟩)
      · rcases List.mem_cons.mp hy with rfl | hy'
        · exact Or.inr (by
            simp only [pairsOf, List.mem_append, List.mem_map]
            exact Or.inl ⟨x, hx', rfl⟩)
        · rcases ih hx' hy' with hp | hp
          · exact Or.inl (by
              simp only [pairsOf, List.mem_append]
              exact Or.inr hp)
          · exact Or.inr (by
              simp only [pairsOf, List.mem_append]
              exact Or.inr hp)

theorem hasHistEdge_of_appear (files : List (String × List String))
    (limit : Option Nat) (x y : String) (hxy : x ≠ y)
    (f : String × List String) (hf : f ∈ historical_solutions files limit)
    (g : List String) (hg : g ∈ parseGroups f.2)
    (hx : x ∈ g) (hy : y ∈ g) : hasHistEdge files limit x y = true := by
  have hpair : (x, y) ∈ filePairs f.2 ∨ (y, x) ∈ filePairs f.2 := by
    rcases pairsOf_mem hx hy hxy with hp | hp
    · exact Or.inl (List.mem_flatMap.mpr ⟨g, hg, hp⟩)
    · exact Or.inr (List.mem_flatMap.mpr ⟨g, hg, hp⟩)
  unfold hasHistEdge
  rw [List.any_eq_true]
  rcases hpair with hp | hp
  · exact ⟨(x, y), List.mem_flatMap.mpr ⟨f, hf, hp⟩, by simp⟩
  · exact ⟨(y, x), List.mem_flatMap.mpr ⟨f, hf, hp⟩, by simp⟩

/-- Claim C6: every unordered pair of current participants that appear
together on some non-comment line of one of the selected historical solution
files (the numeric files sorted by identifier descending, at most the
historical solution limit of them) has its pair variable forced to false in
both orientations and never shares a connected component; a limit of none
selects all numeric files, a limit of zero selects none, disabling
history. -/
theorem historical_exclusion (ps : List String)
    (files : List (String × List String)) (limit : Option Nat)
    (a : Nat → Nat → Bool) (hnd : ps.Nodup)
    (hsym : symmetric_constraint ps.length a)
    (htr : transitive_constraint ps.length a)
    (hh : historical_constraint ps files limit a) :
    (∀ i j : Fin ps.length, i.val ≠ j.val →
      (∃ f ∈ historical_solutions files limit, ∃ g ∈ parseGroups f.2,
          ps.get i ∈ g ∧ ps.get j ∈ g) →
      a i.val j.val = false ∧ a j.val i.val = false ∧
        ¬ sameComponent ps.length a i.val j.val) ∧
    historical_solutions files (some 0) = [] ∧
    (∀ f, f ∈ historical_solutions files none ↔
      f ∈ files ∧ isNumericName f.1 = true) := by
  have main : ∀ i j : Fin ps.length, i.val < j.val →
      (∃ f ∈ historical_solutions files limit, ∃ g ∈ parseGroups f.2,
          ps.get i ∈ g ∧ ps.get j ∈ g) →
      a i.val j.val = false := by
    intro i j hij happ
    obtain ⟨f, hf, g, hg, hx, hy⟩ := happ
    have hne : ps.get i ≠ ps.get j := by
      intro he
      have := (List.Nodup.get_inj_iff hnd).mp he
      have : i.val = j.val := by rw [this]
      omega
    exact hh i j hij (hasHistEdge_of_appear files limit _ _ hne f hf g hg hx hy)
  refine ⟨?_, by simp [historical_solutions], ?_⟩
  · intro i j hij happ
    obtain ⟨f, hf, g, hg, hx, hy⟩ := happ
    rcases Nat.lt_or_ge i.val j.val with hlt | hge
    · have h1 : a i.val j.val = false := main i j hlt ⟨f, hf, g, hg, hx, hy⟩
      have h2 : a j.val i.val = false := by
        rw [symm_all hsym j.val i.val j.isLt i.isLt (Ne.symm hij)]
        exact h1
      refine ⟨h1, h2, ?_⟩
      intro hsc
      rcases sameComponent_adj hsym htr hsc with heq | ⟨-, -, -, htrue⟩
      · exact hij heq
      · rw [h1] at htrue; cases htrue
    · have hlt2 : j.val < i.val := by omega
      have h2 : a j.val i.val = false := main j i hlt2 ⟨f, hf, g, hg, hy, hx⟩
      have h1 : a i.val j.val = false := by
        rw [symm_all hsym i.val j.val i.isLt j.isLt hij]
        exact h2
      refine ⟨h1, h2, ?_⟩
      intro hsc
      rcases sameComponent_adj hsym htr hsc with heq | ⟨-, -, -, htrue⟩
      · exact hij heq
      · rw [h1] at htrue; cases htrue
  · intro f
    unfold historical_solutions
    constructor
    · intro hf
      have := (List.perm_insertionSort
        (fun f g : String × List String => parseNat g.1 ≤ parseNat f.1)
        (solution_paths files)).mem_iff.mp hf
      exact List.mem_filter.mp this
    · intro ⟨h1, h2⟩
      exact (List.perm_insertionSort
        (fun f g : String × List String => parseNat g.1 ≤ parseNat f.1)
        (solution_paths files)).mem_iff.mpr (List.mem_filter.mpr ⟨h1, h2⟩)

/-- Claim C6 witness: participants A and B were grouped in historical file
0; with the all-false assignment the exclusion holds, file selection with
limit zero is empty, and with no limit every numeric file is selected. -/
theorem historical_exclusion_witness :
    (∀ i j : Fin (["A", "B"] : List String).length, i.val ≠ j.val →
      (∃ f ∈ historical_solutions [("0", ["A B"])] none, ∃ g ∈ parseGroups f.2,
          (["A", "B"] : List String).get i ∈ g ∧ (["A", "B"] : List String).get j ∈ g) →
      (fun _ _ : Nat => false) i.val j.val = false ∧
      (fun _ _ : Nat => false) j.val i.val = false ∧
        ¬ sameComponent (["A", "B"] : List String).length (fun _ _ => false) i.val j.val) ∧
    historical_solutions [("0", ["A B"])] (some 0) = [] ∧
    (∀ f, f ∈ historical_solutions [("0", ["A B"])] none ↔
      f ∈ [("0", ["A B"])] ∧ isNumericName f.1 = true) :=
  historical_exclusion ["A", "B"] [("0", ["A B"])] none (fun _ _ => false)
    (by decide)
    (by unfold symmetric_constraint; decide)
    (by unfold transitive_constraint; decide)
    (by unfold historical_constraint; decide)

theorem lexListLe_total {α : Type} [DecidableEq α] (le : α → α → Bool)
    (htot : ∀ a b, le a b = true ∨ le b a = true) :
    ∀ x y : List α, lexListLe le x y = true ∨ lexListLe le y x = true := by
  intro x
  induction x with
  | nil => intro y; exact Or.inl rfl
  | cons a as ih =>
      intro y
      cases y with
      | nil => exact Or.inr rfl
      | cons b bs =>
          by_cases hab : a = b
          · subst hab
            simp only [lexListLe, if_pos rfl]
            exact ih bs
          · simp only [lexListLe, if_neg hab, if_neg (Ne.symm hab)]
            exact htot a b

theorem lexListLe_trans {α : Type} [DecidableEq α] (le : α → α → Bool)
    (htrans : ∀ a b c, le a b = true → le b c = true → le a c = true)
    (hanti : ∀ a b, le a b = true → le b a = true → a = b) :
    ∀ x y z : List α, lexListLe le x y = true → lexListLe le y z = true →
      lexListLe le x z = true := by
  intro x
  induction x with
  | nil => intro y z _ _; rfl
  | cons a as ih =>
      intro y z hxy hyz
      cases y with
      | nil => simp [lexListLe] at hxy
      | cons b bs =>
          cases z with
          | nil => simp [lexListLe] at hyz
          | cons c cs =>
              by_cases hab : a = b
              · subst hab
                by_cases hac : a = c
                · subst hac
                  simp only [lexListLe, if_pos rfl] at hxy hyz ⊢
                  exact ih bs cs hxy hyz
                · simp only [lexListLe, if_pos rfl] at hxy
                  simp only [lexListLe, if_neg hac] at hyz ⊢
                  exact hyz
              · by_cases hbc : b = c
                · subst hbc
                  simp only [lexListLe, if_neg hab] at hxy ⊢
                  exact hxy
                · by_cases hac : a = c
                  · subst hac
                    simp only [lexListLe, if_neg hab] at hxy
                    simp only [lexListLe, if_neg hbc] at hyz
                    exact absurd (hanti a b hxy hyz) hab
                  · simp only [lexListLe, if_neg hab] at hxy
                    simp only [lexListLe, if_neg hbc] at hyz
                    simp only [lexListLe, if_neg hac]
                    exact htrans a b c hxy hyz

theorem lexListLe_anti {α : Type} [DecidableEq α] (le : α → α → Bool)
    (hanti : ∀ a b, le a b = true → le b a = true → a = b) :
    ∀ x y : List α, lexListLe le x y = true → lexListLe le y x = true → x = y := by
  intro x
  induction x with
  | nil =>
      intro y _ hyx
      cases y with
      | nil => rfl
      | cons b bs => simp [lexListLe] at hyx
  | cons a as ih =>
      intro y hxy hyx
      cases y with
      | nil => simp [lexListLe] at hxy
      | cons b bs =>
          by_cases hab : a = b
          · subst hab
            simp only [lexListLe, if_pos rfl] at hxy hyx
            rw [ih bs hxy hyx]
          · simp only [lexListLe, if_neg hab, if_neg (Ne.symm hab)] at hxy hyx
            exact absurd (hanti a b hxy hyx) hab

theorem string_of_codes_eq {a b : String}
    (h : a.data.map Char.toNat = b.data.map Char.toNat) : a = b := by
  have hinj : Function.Injective Char.toNat := by
    intro c d hcd
    exact Char.ext (UInt32.eq_of_toBitVec_eq (BitVec.eq_of_toNat_eq hcd))
  have hdata : a.data = b.data := List.map_injective_iff.mpr hinj h
  cases a; cases b; simp_all

theorem strLe_total : ∀ a b : String, strLe a b = true ∨ strLe b a = true := by
  intro a b
  exact lexListLe_total _ (fun x y => by
    rcases Nat.le_total x y with h | h
    · exact Or.inl (by simpa using h)
    · exact Or.inr (by simpa using h)) _ _

theorem strLe_trans : ∀ a b c : String,
    strLe a b = true → strLe b c = true → strLe a c = true := by
  intro a b c hab hbc
  exact lexListLe_trans _
    (fun x y z h1 h2 => by simp at h1 h2 ⊢; omega)
    (fun x y h1 h2 => by simp at h1 h2; omega) _ _ _ hab hbc

theorem strLe_anti : ∀ a b : String, strLe a b = true → strLe b a = true → a = b := by
  intro a b hab hba
  exact string_of_codes_eq (lexListLe_anti _
    (fun x y h1 h2 => by simp at h1 h2; omega) _ _ hab hba)

/-- Claim C8: the persisted group listing is a function of the family of
groups alone: whenever two invocations of the solution callback obtain the
connected components in any order and with members in any order (the same
family of groups as multisets), the canonicalization of
on_solution_callback, sorting members inside each group and then sorting
the groups by their sorted member sequences, writes identical file
contents. -/
theorem callback_output_deterministic (l1 l2 : List (List String))
    (h : (l1.map (fun g : List String => (↑g : Multiset String))).Perm
         (l2.map (fun g : List String => (↑g : Multiset String)))) :
    solution_file_content l1 = solution_file_content l2 := by
  haveI i1 : IsTrans String (fun x y => strLe x y = true) :=
    ⟨fun a b c => strLe_trans a b c⟩
  haveI i2 : IsAntisymm String (fun x y => strLe x y = true) :=
    ⟨fun a b => strLe_anti a b⟩
  haveI i3 : IsTotal String (fun x y => strLe x y = true) :=
    ⟨fun a b => strLe_total a b⟩
  haveI j1 : IsTrans (List String) (fun x y => lexListLe strLe x y = true) :=
    ⟨fun a b c => lexListLe_trans strLe strLe_trans strLe_anti a b c⟩
  haveI j2 : IsAntisymm (List String) (fun x y => lexListLe strLe x y = true) :=
    ⟨fun a b => lexListLe_anti strLe strLe_anti a b⟩
  haveI j3 : IsTotal (List String) (fun x y => lexListLe strLe x y = true) :=
    ⟨fun a b => lexListLe_total strLe strLe_total a b⟩
  have hfact : ∀ g : List String, sortedGroup g =
      Multiset.sort (fun x y => strLe x y = true) (↑g : Multiset String) := by
    intro g
    apply List.eq_of_perm_of_sorted (r := fun x y => strLe x y = true)
    · have h1 : (sortedGroup g).Perm g := List.perm_insertionSort _ g
      have h2 : (Multiset.sort (fun x y => strLe x y = true)
          (↑g : Multiset String)).Perm g := by
        have := Multiset.sort_eq (fun x y => strLe x y = true) (↑g : Multiset String)
        exact Multiset.coe_eq_coe.mp this
      exact h1.trans h2.symm
    · exact List.sorted_insertionSort _ g
    · exact Multiset.sort_sorted _ _
  have hmap : (l1.map sortedGroup).Perm (l2.map sortedGroup) := by
    have e1 : l1.map sortedGroup =
        (l1.map (fun g : List String => (↑g : Multiset String))).map
          (Multiset.sort (fun x y => strLe x y = true)) := by
      rw [List.map_map]
      exact List.map_congr_left (fun g _ => hfact g)
    have e2 : l2.map sortedGroup =
        (l2.map (fun g : List String => (↑g : Multiset String))).map
          (Multiset.sort (fun x y => strLe x y = true)) := by
      rw [List.map_map]
      exact List.map_congr_left (fun g _ => hfact g)
    rw [e1, e2]
    exact h.map _
  have hcanon : canonicalGroups l1 = canonicalGroups l2 := by
    apply List.eq_of_perm_of_sorted (r := fun x y => lexListLe strLe x y = true)
    · exact (List.perm_insertionSort _ _).trans
        (hmap.trans (List.perm_insertionSort _ _).symm)
    · exact List.sorted_insertionSort _ _
    · exact List.sorted_insertionSort _ _
  unfold solution_file_content
  rw [hcanon]

/-- Claim C8 witness: the same two groups delivered in different orders and
with members in different orders produce identical file contents. -/
theorem callback_output_deterministic_witness :
    solution_file_content [["B", "A"], ["C", "D"]] =
      solution_file_content [["D", "C"], ["A", "B"]] :=
  callback_output_deterministic [["B", "A"], ["C", "D"]] [["D", "C"], ["A", "B"]]
    (by decide)
